import Mathlib

/-!
Verification of the command-dispatch / text-formatting engine of the
terminal-portfolio application (`src/App.tsx`).

The JavaScript code is shallowly embedded as executable Lean definitions.
JavaScript strings are modelled as Lean `String`s (sequences of characters);
because the built-in `String` operations of the standard library do not
reduce well inside the kernel, the JS string primitives (`trim`,
`toLowerCase`, `split`, `startsWith`, `includes`, `repeat`, `padEnd`,
`replace`) are implemented here directly over `List Char` / `String.data`,
with the exact semantics of the corresponding `String.prototype` methods
(for the character ranges the portfolio data uses).  JS numbers are
embedded as exact integers: every arithmetic expression appearing in the
source (`Math.round((level / 100) * totalBars)`) is reproduced by exact
integer computations, with a correctness argument for the floating-point /
exact-arithmetic agreement given at the definition.

A JS expression that throws (only `String.prototype.repeat` with a negative
count can, in this code, via a `RangeError`) is modelled by `Option`:
`none` is a thrown exception.  The JS value `undefined` (which arises from
`COMMANDS[command].output` when `command` names an inherited
`Object.prototype` member) is modelled by `Option` as well, at the type of
the dispatched output.

The note "source:" in a doc string below gives the place in `src/App.tsx`
the definition is translated from.
-/

/-! ## JS string primitives over `List Char` -/

/-- The set of characters removed by `String.prototype.trim` (WhiteSpace ∪
LineTerminator of the ECMAScript specification). -/
def jsWhitespace (c : Char) : Bool :=
  c = ' ' || c = '\t' || c = '\n' || c = '\r' || c = '\x0b' || c = '\x0c' ||
  c = '\u00a0' || c = '\u1680' || c = '\u2000' || c = '\u2001' || c = '\u2002' ||
  c = '\u2003' || c = '\u2004' || c = '\u2005' || c = '\u2006' || c = '\u2007' ||
  c = '\u2008' || c = '\u2009' || c = '\u200a' || c = '\u2028' || c = '\u2029' ||
  c = '\u202f' || c = '\u205f' || c = '\u3000' || c = '\ufeff'

/-- `String.prototype.trim` on the character list. -/
def jsTrim (l : List Char) : List Char :=
  ((l.dropWhile jsWhitespace).reverse.dropWhile jsWhitespace).reverse

/-- `String.prototype.trim`. -/
def jsTrimS (s : String) : String :=
  String.mk (jsTrim s.data)

/-- ASCII case folding, the fragment of `String.prototype.toLowerCase`
relevant to the command names of this program (all registered names are
ASCII). -/
def jsCharLower (c : Char) : Char :=
  if 'A' ≤ c ∧ c ≤ 'Z' then Char.ofNat (c.toNat + 32) else c

/-- `String.prototype.toLowerCase`. -/
def jsToLowerS (s : String) : String :=
  String.mk (s.data.map jsCharLower)

/-- `String.prototype.split(sep)` for a one-character separator `sep`:
splits at every occurrence, keeping empty fragments, and yields `[[]]`
on the empty string — exactly the JS semantics. -/
def splitCh (sep : Char) : List Char → List (List Char)
  | [] => [[]]
  | c :: rest =>
    match splitCh sep rest with
    | [] => [[]]
    | g :: gs => if c = sep then [] :: g :: gs else (c :: g) :: gs

/-- `String.prototype.split('\\n')` — splitting at every (leftmost,
non-overlapping) occurrence of the two-character sequence `\`,`n`.  The
project descriptions in `portfolio.json` use this literal two-character
sequence as a hard line-break marker (`App.tsx` line 120 splits on the JS
string `'\\n'`, i.e. backslash followed by `n`). -/
def splitMarker : List Char → List (List Char)
  | [] => [[]]
  | [c] => [[c]]
  | c :: d :: rest =>
    if c = '\\' ∧ d = 'n' then [] :: splitMarker rest
    else
      match splitMarker (d :: rest) with
      | [] => [[]]
      | g :: gs => (c :: g) :: gs

/-- Joining a list of fragments with a single space — `Array.prototype.join(' ')`,
also the "re-joining with single spaces" operation of the word-wrap claim. -/
def joinSp : List (List Char) → List Char
  | [] => []
  | [x] => x
  | x :: xs => x ++ ' ' :: joinSp xs

/-- Splitting at every single whitespace character (an auxiliary notion for
stating the word-wrap property; not part of the source). -/
def splitWh : List Char → List (List Char)
  | [] => [[]]
  | c :: rest =>
    match splitWh rest with
    | [] => [[]]
    | g :: gs => if jsWhitespace c then [] :: g :: gs else (c :: g) :: gs

/-- The words of a character sequence: its maximal runs of non-whitespace
characters, in order.  This is the "original words" notion of the word-wrap
claim. -/
def runs (l : List Char) : List (List Char) :=
  (splitWh l).filter (fun g => g ≠ [])

/-- Replacing every hard line-break marker (the literal two-character
sequence `\`,`n`, cf. `splitMarker`) by a single space.  Used only to state
the word-wrap reconstruction property: the words of a description are the
`runs` of `replMarker` of it. -/
def replMarker : List Char → List Char
  | [] => []
  | [c] => [c]
  | c :: d :: rest =>
    if c = '\\' ∧ d = 'n' then ' ' :: replMarker rest
    else c :: replMarker (d :: rest)

/-! ## The project-description word wrap
source: `App.tsx` lines 100–189 (the `projects` output builder). -/

/-- source: `const baseIndent = '   ';` -/
def baseIndent : List Char := "   ".data

/-- source: `const firstLineItemPrefix = '├── ';` (renamed, the original
name does not pass this project's linter). -/
def firstLineItemPfx : List Char := "├── ".data

/-- source: `const subsequentLineItemPrefix = '│   ';` (renamed, the
original name does not pass this project's linter). -/
def subsequentLineItemPfx : List Char := "│   ".data

/-- source: `const lastLineItemPrefix = '└── ';` (renamed, as above). -/
def lastLineItemPfx : List Char := "└── ".data

/-- source: `const descriptionLabel = 'Description: ';` -/
def descriptionLabel : List Char := "Description: ".data

/-- source: `const descriptionContinuationIndent = ' '.repeat(descriptionLabel.length);` -/
def descriptionContinuationIndent : List Char := List.replicate descriptionLabel.length ' '

/-- source: `const textContentWidth = 75;` -/
def textContentWidth : Nat := 75

/-- The full prefix of the first emitted description line:
`baseIndent ++ firstLineItemPrefix ++ descriptionLabel`. -/
def pFirst : List Char := baseIndent ++ firstLineItemPfx ++ descriptionLabel

/-- The full prefix of a continuation description line:
`baseIndent ++ subsequentLineItemPrefix ++ descriptionContinuationIndent`. -/
def pCont : List Char := baseIndent ++ subsequentLineItemPfx ++ descriptionContinuationIndent

/-- The line emitted for an empty interior description segment:
`baseIndent ++ subsequentLineItemPrefix` (source line 128). -/
def pEmpty : List Char := baseIndent ++ subsequentLineItemPfx

/-- The line pushed for one wrapped content fragment: the source duplicates
this `if` at its three push sites (lines 145–150, 157–162, 169–175); the
first pushed line carries the `Description:` label, all later ones the
continuation prefix. -/
def pushDescLine (isFirst : Bool) (content : List Char) : List Char :=
  if isFirst then pFirst ++ content else pCont ++ content

/-- The state of the description emitter: the lines pushed so far and the
`isFirstLineOfOverallDescriptionOutput` flag. -/
structure WrapState where
  result : List (List Char)
  isFirst : Bool

/-- Pushing one content fragment (with its prefix) and clearing the
first-line flag; the shared body of the source's three push sites. -/
def pushContent (s : WrapState) (c : List Char) : WrapState :=
  ⟨s.result ++ [pushDescLine s.isFirst c], false⟩

/-- source: the word loop, lines 135–166.  State: emitted lines `s` and the
current `lineBuffer` `buf`; returns both after consuming the word list. -/
def wrapLoop (s : WrapState) (buf : List Char) : List (List Char) → WrapState × List Char
  | [] => (s, buf)
  | word :: rest =>
    let potentialLine := if buf = [] then word else buf ++ ' ' :: word
    if potentialLine.length ≤ textContentWidth then
      wrapLoop s potentialLine rest
    else
      let s1 := if buf ≠ [] then pushContent s buf else s
      if textContentWidth < word.length ∧ word ≠ [] then
        wrapLoop (pushContent s1 word) [] rest
      else
        wrapLoop s1 word rest

/-- source: the body of `segments.forEach` (lines 123–177): an empty
segment after output has started becomes a bare `│` line; otherwise the
segment is split on spaces, fed to the word loop, and the remaining buffer
is flushed (lines 168–176). -/
def processSegment (s : WrapState) (segment : List Char) : WrapState :=
  if jsTrim segment = [] ∧ s.isFirst = false then
    ⟨s.result ++ [pEmpty], s.isFirst⟩
  else
    let out := wrapLoop s [] (splitCh ' ' segment)
    if out.2 ≠ [] then pushContent out.1 out.2 else out.1

/-- source: lines 117–181 — the full description rendering of one project:
a non-blank description is split at the hard-break markers and wrapped
segment by segment; an absent or whitespace-only description produces the
single bare label line (line 180). -/
def descriptionLines (desc : List Char) : List (List Char) :=
  if desc ≠ [] ∧ jsTrim desc ≠ [] then
    ((splitMarker desc).foldl processSegment ⟨[], true⟩).result
  else
    [pFirst]

/-- Removing the inserted prefix of a produced description line (the
tree-drawing prefix, the `Description: ` label, and the continuation
indent) — the "minus inserted prefixes" operation of the word-wrap claim.
`pFirst` and `pCont` have equal length and differ at their fourth
character, so the three cases are mutually exclusive on produced lines. -/
def lineContent (l : List Char) : List Char :=
  if pFirst.isPrefixOf l then l.drop pFirst.length
  else if pCont.isPrefixOf l then l.drop pCont.length
  else if pEmpty.isPrefixOf l then l.drop pEmpty.length
  else l

/-- The contents (prefixes removed) of the lines emitted so far. -/
def contentsOf (s : WrapState) : List (List Char) :=
  s.result.map lineContent

/-- The concatenated word sequences of a list of fragments. -/
def allRuns (cs : List (List Char)) : List (List Char) :=
  cs.flatMap runs
-- appended to the defs for testing
/-- The width predicate of the wrap claim: a produced line's content is
within the configured width, or is a single unbreakable word (it contains
no space). -/
def WidthOk (c : List Char) : Prop :=
  c.length ≤ textContentWidth ∨ ' ' ∉ c

/-! ## String helpers for the formatter and dispatcher -/

/-- `String.prototype.startsWith`. -/
def jsStartsWith (s pat : String) : Bool :=
  pat.data.isPrefixOf s.data

/-- `String.prototype.includes` for a single-character search string. -/
def jsIncludesChar (s : String) (c : Char) : Bool :=
  c ∈ s.data

/-- `String.prototype.repeat`: `n` copies of `s` concatenated; a negative
count throws a `RangeError`, modelled by `none`. -/
def jsRepeat (s : String) (n : Int) : Option String :=
  if n < 0 then none
  else some (String.mk (List.flatten (List.replicate n.toNat s.data)))

/-- `String.prototype.padEnd(n)`: pad with spaces up to length `n`
(a longer string is returned unchanged). -/
def jsPadEnd (s : String) (n : Nat) : String :=
  String.mk (s.data ++ List.replicate (n - s.data.length) ' ')

/-- `String.prototype.replace(' ', '_')`: replace the first space only. -/
def replaceFirstSpace (s : String) : String :=
  String.mk (go s.data)
where
  go : List Char → List Char
    | [] => []
    | c :: rest => if c = ' ' then '_' :: rest else c :: go rest

/-- source: `App.tsx` line 35, `Math.round((level / 100) * totalBars)` with
`totalBars = 20`.  In exact arithmetic `(level / 100) * 20 = level / 5`,
whose fractional part lies in `{0, .2, .4, .6, .8}` — never exactly `.5` —
so the two floating-point roundings of the JS expression (relative error
`< 2⁻⁵⁰` for any level of realistic size) cannot move the value across a
rounding boundary, and `Math.round` (round half toward `+∞`, i.e.
`⌊x + 1/2⌋`) of it equals the exact `⌊(2·level + 5) / 10⌋`, a floor
division (`Int.fdiv`). -/
def filledBarsOf (level : Int) : Int :=
  (2 * level + 5).fdiv 10

/-- source: `App.tsx` lines 33–37, `generateSkillBar`.  Joins
`'█'.repeat(filledBars)` and `' '.repeat(totalBars - filledBars)`; either
`repeat` throws a `RangeError` (= `none`) when its count is negative.
(The repository file stores the `█` glyph double-encoded; it is one
character.) -/
def generateSkillBar (level : Int) : Option String := do
  let totalBars : Int := 20
  let filledBars : Int := filledBarsOf level
  let filled ← jsRepeat "█" filledBars
  let blank ← jsRepeat " " (totalBars - filledBars)
  pure (filled ++ blank)

/-- JS `text || url`: the label when it is present and truthy (non-empty),
the url otherwise. -/
def jsOrString (text : Option String) (url : String) : String :=
  match text with
  | some t => if t = "" then url else t
  | none => url

/-- The scheme normalization of `makeClickableLink` (`App.tsx` lines 19–28):
an already-schemed url is kept; otherwise a bare email (contains `@`)
gets `mailto:`, anything else `https://`. -/
def hrefOf (url : String) : String :=
  if ¬(jsStartsWith url "http://" || jsStartsWith url "https://" || jsStartsWith url "mailto:") then
    if jsIncludesChar url '@' ∧ ¬jsStartsWith url "mailto:" then "mailto:" ++ url
    else "https://" ++ url
  else url

/-- source: `App.tsx` lines 13–30, `makeClickableLink`: empty or placeholder
urls return `text || url` unchanged; otherwise an anchor markup fragment
embedding the normalized href and the display text. -/
def makeClickableLink (url : String) (text : Option String) : String :=
  if url = "" ∨ jsTrimS url = "#" ∨ jsTrimS url = "" then jsOrString text url
  else
    "<a href=\"" ++ hrefOf url ++ "\" target=\"_blank\" class=\"text-cyan-400 hover:underline\">"
      ++ jsOrString text url ++ "</a>"

/-! ## The portfolio data model (§3 of the specification; the shape of
`portfolio.json`, which is read-only input). -/

structure Personal where
  name : String
  title : String
  username : String
  website : String
  location : String
  resumeUrl : String
  deriving DecidableEq

structure Skill where
  name : String
  level : Int
  deriving DecidableEq

structure Project where
  name : String
  description : String
  techStack : String
  github : String
  status : String
  deriving DecidableEq

structure EducationRecord where
  period : String
  degree : String
  university : String
  gpa : String
  coursework : List String
  expectedGraduation : String
  deriving DecidableEq

structure FileEntry where
  name : String
  type : String
  permissions : String
  size : String
  date : String
  deriving DecidableEq

structure ContactInfo where
  email : String
  linkedin : String
  github : String
  phone : String
  deriving DecidableEq

structure SystemInfo where
  os : String
  host : String
  kernel : String
  uptime : String
  shell : String
  resolution : String
  terminal : String
  cpu : String
  memory : String
  disk : String
  projectsCompleted : String
  primaryLanguages : String
  frameworks : String
  databases : String
  tools : String
  deriving DecidableEq

/-- The immutable portfolio document (`portfolio.json`).  `skills` keeps the
`Object.entries` order of its categories. -/
structure PortfolioData where
  personal : Personal
  about : List String
  skills : List (String × List Skill)
  projects : List Project
  education : EducationRecord
  contact : ContactInfo
  files : List FileEntry
  system : SystemInfo
  deriving DecidableEq

/-! ## The command registry (source: `generateCommands`, `App.tsx` lines 50–302) -/

/-- One registry entry: `{description, output}`. -/
structure CommandEntry where
  description : String
  output : List String
  deriving DecidableEq

/-- source: `App.tsx` lines 40–47, `formatFileList`. -/
def formatFileList (d : PortfolioData) : List String :=
  "total 8" :: d.files.map (fun file =>
    file.permissions ++ "  2 " ++ d.personal.username ++ " " ++ d.personal.username ++ " "
      ++ file.size ++ " " ++ file.date ++ " " ++ file.name
      ++ (if file.type = "directory" then "/" else ""))

/-- source: `App.tsx` lines 54–71, the `help` output (the `experience`
entry is commented out in the source). -/
def helpOutput : List String :=
  ["Available commands:",
   "  help          - Show this help message",
   "  about         - Learn about me",
   "  skills        - View my technical skills",
   "  projects      - See my projects",
   "  education     - See my educational background",
   "  contact       - Get my contact information",
   "  resume        - View resume and download link",
   "  download      - Download resume PDF",
   "  clear         - Clear the terminal",
   "  whoami        - Display current user",
   "  ls            - List directory contents",
   "  pwd           - Print working directory",
   "  date          - Show current date and time",
   "  neofetch      - Display system information"]

/-- source: `App.tsx` lines 75–79, the `about` output. -/
def aboutOutput (d : PortfolioData) : List String :=
  (d.personal.name ++ " - " ++ d.personal.title) :: "" :: d.about

/-- The lines of one skills category (source lines 85–94): the category
header, one line per skill — tree prefix, name padded to 20 columns, the
bar from `generateSkillBar`, and the percentage — and a closing blank.
`none` when `generateSkillBar` throws for some level. -/
def categoryChunk (category : String) (skills : List Skill) : Option (List String) := do
  let skillLines ← skills.enum.mapM (fun iskill => do
    let isLast := iskill.1 = skills.length - 1
    let pfx := if isLast then "  └──" else "  ├──"
    let bar ← generateSkillBar iskill.2.level
    pure (pfx ++ " " ++ jsPadEnd iskill.2.name 20 ++ " " ++ bar ++ " "
      ++ toString iskill.2.level ++ "%"))
  pure ((category ++ ":") :: skillLines ++ [""])

/-- source: `App.tsx` lines 83–96, the `skills` output. -/
def skillsOutput (d : PortfolioData) : Option (List String) := do
  let chunks ← d.skills.mapM (fun cs => categoryChunk cs.1 cs.2)
  pure ("Technical Skills:" :: "" :: chunks.flatten)

/-- The lines of one project block (source lines 114–186): numbered
heading, the wrapped description (`descriptionLines`), then the fixed
tree lines for tech stack, GitHub link and status, and a blank separator. -/
def projectBlock (idx : Nat) (p : Project) : List String :=
  (toString (idx + 1) ++ ". " ++ p.name)
    :: ((descriptionLines p.description.data).map String.mk
      ++ ["   ├── Tech Stack: " ++ p.techStack,
          "   ├── GitHub: " ++ makeClickableLink p.github none,
          "   └── Status: " ++ p.status,
          ""])

/-- source: `App.tsx` lines 100–189, the `projects` output. -/
def projectsOutput (d : PortfolioData) : List String :=
  "Projects Portfolio:" :: "" :: (d.projects.enum.map (fun ip => projectBlock ip.1 ip.2)).flatten

/-- source: `App.tsx` lines 213–241, the `education` output (the
certifications block is commented out in the source). -/
def educationOutput (d : PortfolioData) : List String :=
  ["Education:", "",
   d.education.period ++ " | " ++ d.education.degree,
   "├── University: " ++ d.education.university,
   "├── GPA: " ++ d.education.gpa,
   "├── Relevant Coursework:"]
  ++ d.education.coursework.enum.map (fun ic =>
      (if ic.1 = d.education.coursework.length - 1 then "│   └──" else "│   ├──") ++ " " ++ ic.2)
  ++ ["└── Expected Graduation: " ++ d.education.expectedGraduation, ""]

/-- source: `App.tsx` lines 245–257, the `contact` output. -/
def contactOutput (d : PortfolioData) : List String :=
  ["Contact Information:", "",
   "📧 Email:    " ++ makeClickableLink d.contact.email none,
   "🔗 LinkedIn: " ++ makeClickableLink d.contact.linkedin none,
   "🐙 GitHub:   " ++ makeClickableLink d.contact.github none,
   "🌐 Website:  " ++ makeClickableLink d.personal.website none,
   "📱 Phone:    " ++ d.contact.phone,
   "📍 Location: " ++ d.personal.location,
   "",
   "Feel free to reach out for opportunities, collaborations,",
   "or just to have a chat about technology!"]

/-- ASCII uppercasing, the fragment of `String.prototype.toUpperCase`
the resume banner needs. -/
def jsCharUpper (c : Char) : Char :=
  if 'a' ≤ c ∧ c ≤ 'z' then Char.ofNat (c.toNat - 32) else c

/-- `String.prototype.toUpperCase`. -/
def jsToUpperS (s : String) : String :=
  String.mk (s.data.map jsCharUpper)

/-- The resume banner rule, a literal of 59 box-drawing `═` characters in
the source. -/
def resumeBanner : String := String.mk (List.replicate 59 '═')

/-- source: `App.tsx` lines 261–277, the `resume` output (the experience
line is commented out in the source). -/
def resumeOutput (d : PortfolioData) : List String :=
  [resumeBanner,
   "                        " ++ jsToUpperS d.personal.name ++ "                          ",
   "                " ++ d.personal.title ++ "                   ",
   resumeBanner,
   "",
   "📧 " ++ makeClickableLink d.contact.email none ++ "  📱 " ++ d.contact.phone,
   "🔗 " ++ makeClickableLink d.contact.linkedin none ++ "  🐙 " ++ makeClickableLink d.contact.github none,
   "",
   "🎓 " ++ d.education.degree ++ " (" ++ d.education.period ++ ") - GPA: " ++ d.education.gpa,
   "🛠️ " ++ d.system.primaryLanguages,
   "",
   "📄 Download PDF: " ++ makeClickableLink d.personal.resumeUrl none,
   "",
   "Use \"education\", \"skills\" for details!"]

/-- source: `App.tsx` lines 295–300, the `neofetch` output (one line: a
`<pre>` block with embedded newlines and markup). -/
def neofetchOutput (d : PortfolioData) : List String :=
  ["<pre class=\"terminal-ascii-art\">\n                   -`                     <span class=\"text-green-400\">" ++ d.personal.username ++ "</span><span class=\"text-white\">@</span><span class=\"text-green-400\">portfolio</span>\n                  .o+`                    <span class=\"text-white\">-----------------</span>\n                 `ooo/                    <span class=\"text-blue-400\">OS:</span> " ++ d.system.os ++ "\n                `+oooo:                   <span class=\"text-blue-400\">Host:</span> " ++ d.system.host ++ "\n               `+oooooo:                  <span class=\"text-blue-400\">Kernel:</span> " ++ d.system.kernel ++ "\n               -+oooooo+:                 <span class=\"text-blue-400\">Uptime:</span> " ++ d.system.uptime ++ "\n             `/:-:++oooo+:                <span class=\"text-blue-400\">Shell:</span> " ++ d.system.shell ++ "\n            `/++++/+++++++:               <span class=\"text-blue-400\">Resolution:</span> " ++ d.system.resolution ++ "\n           `/++++++++++++++:              <span class=\"text-blue-400\">Terminal:</span> " ++ d.system.terminal ++ "\n          `/+++ooooooooo+++/              <span class=\"text-blue-400\">CPU:</span> " ++ d.system.cpu ++ "\n         ./ooosssso++osssssso+`           <span class=\"text-blue-400\">Memory:</span> " ++ d.system.memory ++ "\n        .oossssso-````/ossssss+`          <span class=\"text-blue-400\">Disk:</span> " ++ d.system.disk ++ "\n       -osssssso.      :ssssssso.         <span class=\"text-blue-400\">Skills:</span> <span class=\"text-red-400\">█</span><span class=\"text-yellow-400\">█</span><span class=\"text-green-400\">█</span><span class=\"text-cyan-400\">█</span><span class=\"text-blue-400\">█</span><span class=\"text-purple-400\">█</span><span class=\"text-pink-400\">█</span><span class=\"text-white\">█</span>\n      :osssssss/        osssso+++.        <span class=\"text-blue-400\">Projects:</span> <span class=\"text-green-400\">" ++ d.system.projectsCompleted ++ " completed</span>\n     /ossssssss/        +ssssooo/-        <span class=\"text-blue-400\">Languages:</span> " ++ d.system.primaryLanguages ++ "\n   `/ossssso+/:-        -:/+osssso+-      <span class=\"text-blue-400\">Frameworks:</span> " ++ d.system.frameworks ++ "\n  `+sso+:-`                 `.-/+oso:     <span class=\"text-blue-400\">Database:</span> " ++ d.system.databases ++ "\n `++:.                           `-/+/    <span class=\"text-blue-400\">Tools:</span> " ++ d.system.tools ++ "\n .`                                 `/    \n</pre>"]

/-- Rendering of `new Date().toString()` at an abstract instant `now`
(time is modelled as a natural number; the rendering is injective, which is
all the `date` claims need). -/
def dateToString (now : Nat) : String :=
  toString now

/-- source: `App.tsx` lines 50–302, `generateCommands`, invoked once per
render (`const COMMANDS = generateCommands()`, line 312).  `now` is the
instant of that invocation: the `date` entry stores
`[new Date().toString()]` evaluated right there (line 293).  The result is
`none` when building the skills section throws (`generateSkillBar` on an
out-of-range level). -/
def generateCommands (d : PortfolioData) (now : Nat) : Option (List (String × CommandEntry)) := do
  let sk ← skillsOutput d
  pure
    [("help", ⟨"Show available commands", helpOutput⟩),
     ("about", ⟨"Learn about me", aboutOutput d⟩),
     ("skills", ⟨"View technical skills", sk⟩),
     ("projects", ⟨"See my projects", projectsOutput d⟩),
     ("education", ⟨"See educational background", educationOutput d⟩),
     ("contact", ⟨"Get contact information", contactOutput d⟩),
     ("resume", ⟨"View resume and download link", resumeOutput d⟩),
     ("whoami", ⟨"Display current user", [d.personal.username]⟩),
     ("pwd", ⟨"Print working directory", ["/home/" ++ d.personal.username ++ "/portfolio"]⟩),
     ("ls", ⟨"List directory contents", formatFileList d⟩),
     ("date", ⟨"Show current date and time", [dateToString now]⟩),
     ("neofetch", ⟨"Display system information", neofetchOutput d⟩)]

/-! ## Property lookup and the dispatcher
(source: `executeCommand`, `App.tsx` lines 351–408) -/

/-- The enumerable-by-lookup members every plain JS object inherits from
`Object.prototype`; `COMMANDS[command]` finds these when `command` is not
an own key of the registry object literal. -/
def objectPrototypeProps : List String :=
  ["constructor", "hasOwnProperty", "isPrototypeOf", "propertyIsEnumerable",
   "toLocaleString", "toString", "valueOf",
   "__defineGetter__", "__defineSetter__", "__lookupGetter__", "__lookupSetter__",
   "__proto__"]

/-- The result of the JS property read `COMMANDS[name]`: an own registry
entry, a truthy inherited `Object.prototype` member (whose `.output` is
`undefined`), or `undefined` (falsy). -/
inductive JsProp where
  | own : CommandEntry → JsProp
  | proto : JsProp
  | absent : JsProp
  deriving DecidableEq

/-- The property read `COMMANDS[name]` on the registry object literal. -/
def jsGet (reg : List (String × CommandEntry)) (name : String) : JsProp :=
  match reg.find? (fun p => p.1 == name) with
  | some p => .own p.2
  | none => if name ∈ objectPrototypeProps then .proto else .absent

/-- `.output` of a property-read result; `none` is JS `undefined`. -/
def JsProp.outputOf : JsProp → Option (List String)
  | .own e => some e.output
  | _ => none

/-- source: `App.tsx` lines 390–393, the unknown-command message. -/
def notFoundOutput (command : String) : List String :=
  ["Command not found: " ++ command,
   "Type \"help\" to see available commands."]

/-- source: `App.tsx` lines 369–376, the `download` informational output
(the actual download trigger is a detached side effect, outside this
model). -/
def downloadOutput (d : PortfolioData) : List String :=
  ["Initiating download...", "",
   "📄 Downloading: " ++ replaceFirstSpace d.personal.name ++ "_Resume.pdf",
   "🔗 Source: " ++ makeClickableLink d.personal.resumeUrl none,
   "",
   "If download doesn\x27t start automatically, click the link above."]

/-- How one dispatch resolves: `clear` short-circuits (resets the session,
produces no output and no history entry); everything else resolves to an
output, where `none` models the `undefined` output produced for an
inherited `Object.prototype` member name. -/
inductive DispatchOutcome where
  | cleared : DispatchOutcome
  | resolved : Option (List String) → DispatchOutcome
  deriving DecidableEq

/-- source: `App.tsx` lines 352–394, the pure part of `executeCommand`:
normalize (trim, lower-case, split on spaces, first token), then the
branch chain — empty token, `clear`, `resume` (an explicit property read
of the registry's own `resume` entry), `download`, the registry lookup
`COMMANDS[command]`, and the not-found fallback. -/
def executeCommandOutput (d : PortfolioData) (reg : List (String × CommandEntry))
    (input : String) : DispatchOutcome :=
  let trimmedInput := jsToLowerS (jsTrimS input)
  let command := String.mk ((splitCh ' ' trimmedInput.data).headD [])
  if command = "" then .resolved (some [""])
  else if command = "clear" then .cleared
  else if command = "resume" then .resolved (jsGet reg "resume").outputOf
  else if command = "download" then .resolved (some (downloadOutput d))
  else
    match jsGet reg command with
    | .own e => .resolved (some e.output)
    | .proto => .resolved none
    | .absent => .resolved (some (notFoundOutput command))

/-! ## The session state machine
(source: the `App` component state and handlers, `App.tsx` lines 304–421).
The remaining state of the component — clock, refs, focus — is view glue
outside the dispatch engine. -/

/-- One history entry (source interface `Command`, lines 6–10).  `output`
is `Option` because the dispatcher can store JS `undefined` there (see
`JsProp`); `timestamp` is the abstract instant of the history append. -/
structure HistoryEntry where
  input : String
  output : Option (List String)
  timestamp : Nat
  deriving DecidableEq

/-- A resolution in flight: accepted by `executeCommand`, output computed,
waiting for the artificial 300 ms delay before its history append. -/
structure PendingResolution where
  input : String
  output : Option (List String)
  deriving DecidableEq

/-- The session state: `commands` (the history), `currentInput`,
`isTyping` (the Processing flag), and the in-flight resolutions.  In the
JS source the pending resolution lives in the suspended `executeCommand`
coroutine; it is reified here so that "how many resolutions are in
flight" is a stateable quantity. -/
structure TerminalState where
  commands : List HistoryEntry
  currentInput : String
  isTyping : Bool
  pending : List PendingResolution
  deriving DecidableEq

/-- The synchronous prefix of `executeCommand` (lines 351–394): sets
`isTyping`, resolves the input; `clear` resets everything right away and
returns (lines 361–365, so `isTyping` ends up `false` again and nothing is
queued); every other outcome leaves a pending resolution awaiting the
delayed append. -/
def executeCommandStart (d : PortfolioData) (reg : List (String × CommandEntry))
    (s : TerminalState) (input : String) : TerminalState :=
  match executeCommandOutput d reg input with
  | .cleared => { s with commands := [], currentInput := "", isTyping := false }
  | .resolved out => { s with isTyping := true, pending := s.pending ++ [⟨input, out⟩] }

/-- The continuation of `executeCommand` after the 300 ms delay (lines
396–407): append the history entry (timestamped `now`), clear the input,
drop the Processing flag. -/
def executeCommandFinish (now : Nat) (s : TerminalState) : TerminalState :=
  match s.pending with
  | [] => s
  | p :: rest =>
    { s with commands := s.commands ++ [⟨p.input, p.output, now⟩],
             currentInput := "", isTyping := false, pending := rest }

/-- source: `App.tsx` lines 410–415, `handleSubmit`: dispatch only when the
trimmed input is truthy (non-empty) and no command is being processed. -/
def handleSubmit (d : PortfolioData) (reg : List (String × CommandEntry))
    (s : TerminalState) : TerminalState :=
  if jsTrimS s.currentInput ≠ "" ∧ s.isTyping = false then
    executeCommandStart d reg s s.currentInput
  else s

/-- The events the session reacts to: a submit (Enter), the completion of
a pending resolution's delay, and edits of the input field (`onChange`,
line 489). -/
inductive SessionStep (d : PortfolioData) (reg : List (String × CommandEntry)) :
    TerminalState → TerminalState → Prop
  | submit (s : TerminalState) : SessionStep d reg s (handleSubmit d reg s)
  | finish (s : TerminalState) (now : Nat) : SessionStep d reg s (executeCommandFinish now s)
  | edit (s : TerminalState) (str : String) : SessionStep d reg s { s with currentInput := str }

/-- Reachability through session events. -/
def SessionReachable (d : PortfolioData) (reg : List (String × CommandEntry)) :
    TerminalState → TerminalState → Prop :=
  Relation.ReflTransGen (SessionStep d reg)

/-- The state the session starts in: empty history, blank input, Idle.
(The welcome banner the view appends on mount has empty `input` and is not
produced by a submission; it is outside the dispatch engine.) -/
def initState : TerminalState :=
  ⟨[], "", false, []⟩

/-! ## A concrete portfolio document, for evaluating the model -/

/-- A small well-formed `PortfolioData` instance used by the concrete
witnesses and counterexamples below. -/
def sampleData : PortfolioData where
  personal := ⟨"Ada Lovelace", "Engineer", "ada", "ada.example.com", "London", "ada.example.com/resume.pdf"⟩
  about := ["First programmer."]
  skills := [("Languages", [⟨"Lean", 90⟩])]
  projects := [⟨"Notes", "Analytical engine notes", "paper", "github.com/ada/notes", "Done"⟩]
  education := ⟨"1833-1842", "Mathematics", "London", "4.0", ["Analysis"], "1842"⟩
  contact := ⟨"ada@example.com", "linkedin.com/in/ada", "github.com/ada", "+44 000"⟩
  files := [⟨"about.txt", "file", "-rw-r--r--", "1024", "Jan 01"⟩]
  system := ⟨"os", "host", "kernel", "uptime", "shell", "res", "term", "cpu", "mem", "disk", "10", "langs", "fw", "db", "tools"⟩

/-- The registry the sample document generates at instant `0`. -/
def sampleReg : List (String × CommandEntry) :=
  (generateCommands sampleData 0).getD []

/-- The single-flight invariant: the Processing flag is down only when no
resolution is in flight, and at most one ever is. -/
def FlightInv (s : TerminalState) : Prop :=
  (s.isTyping = false → s.pending = []) ∧ s.pending.length ≤ 1

/-- The non-blank-history invariant: every history entry and every pending
resolution created through the submit surface records an input with at
least one character surviving `trim`. -/
def NonBlankInv (s : TerminalState) : Prop :=
  (∀ c ∈ s.commands, jsTrimS c.input ≠ "") ∧ (∀ p ∈ s.pending, jsTrimS p.input ≠ "")

/-! ## Lemmas and claim theorems -/

-- appended to the defs for testing
section WrapLemmas

theorem splitCh_ne_nil (sep : Char) (s : List Char) : splitCh sep s ≠ [] := by
  cases s with
  | nil => simp [splitCh]
  | cons c rest =>
    simp only [splitCh]
    cases splitCh sep rest with
    | nil => simp
    | cons g gs => by_cases h : c = sep <;> simp [h]

theorem splitWh_ne_nil (s : List Char) : splitWh s ≠ [] := by
  cases s with
  | nil => simp [splitWh]
  | cons c rest =>
    simp only [splitWh]
    cases splitWh rest with
    | nil => simp
    | cons g gs => by_cases h : jsWhitespace c <;> simp [h]

theorem splitMarker_ne_nil (s : List Char) : splitMarker s ≠ [] := by
  match s with
  | [] => simp [splitMarker]
  | [c] => simp [splitMarker]
  | c :: d :: rest =>
    simp only [splitMarker]
    by_cases h : c = '\\' ∧ d = 'n'
    · simp [h]
    · simp only [h, if_false]
      cases splitMarker (d :: rest) with
      | nil => simp
      | cons g gs => simp

theorem joinSp_cons_cons (x y : List Char) (ys : List (List Char)) :
    joinSp (x :: y :: ys) = x ++ ' ' :: joinSp (y :: ys) := rfl

theorem joinSp_splitCh (s : List Char) : joinSp (splitCh ' ' s) = s := by
  induction s with
  | nil => rfl
  | cons c rest ih =>
    simp only [splitCh]
    rcases h : splitCh ' ' rest with _ | ⟨g, gs⟩
    · exact absurd h (splitCh_ne_nil _ _)
    · rw [h] at ih
      by_cases hc : c = ' '
      · subst hc
        simp [joinSp_cons_cons, ih]
      · simp only [if_neg hc]
        cases gs with
        | nil => simpa [joinSp] using ih
        | cons y ys =>
          rw [joinSp_cons_cons] at ih ⊢
          simpa using ih

/-- Induction on a character list two characters at a time. -/
theorem twoStepInduction {P : List Char → Prop} (h0 : P []) (h1 : ∀ c, P [c])
    (h2 : ∀ c d rest, P rest → P (d :: rest) → P (c :: d :: rest)) : ∀ s, P s := by
  have key : ∀ n s, List.length s ≤ n → P s := by
    intro n
    induction n with
    | zero =>
      intro s hs
      cases s with
      | nil => exact h0
      | cons c rest => simp at hs
    | succ n ih =>
      intro s hs
      match s with
      | [] => exact h0
      | [c] => exact h1 c
      | c :: d :: rest =>
        refine h2 c d rest (ih rest ?_) (ih (d :: rest) ?_)
        · simp only [List.length_cons] at hs
          omega
        · simp only [List.length_cons] at hs ⊢
          omega
  exact fun s => key s.length s le_rfl

theorem joinSp_splitMarker : ∀ s, joinSp (splitMarker s) = replMarker s := by
  refine twoStepInduction rfl (fun c => rfl) ?_
  intro c d rest ih ih1
  simp only [splitMarker, replMarker]
  by_cases h : c = '\\' ∧ d = 'n'
  · simp only [if_pos h]
    rcases hm : splitMarker rest with _ | ⟨g, gs⟩
    · exact absurd hm (splitMarker_ne_nil _)
    · rw [hm] at ih
      rw [joinSp_cons_cons]
      simpa using ih
  · simp only [if_neg h]
    rcases hm : splitMarker (d :: rest) with _ | ⟨g, gs⟩
    · exact absurd hm (splitMarker_ne_nil _)
    · rw [hm] at ih1
      cases gs with
      | nil => simpa [joinSp] using ih1
      | cons y ys =>
        rw [joinSp_cons_cons] at ih1 ⊢
        simpa using ih1

theorem splitWh_append_ws (w : Char) (hw : jsWhitespace w = true) :
    ∀ a b, splitWh (a ++ w :: b) = splitWh a ++ splitWh b := by
  intro a
  induction a with
  | nil =>
    intro b
    simp only [List.nil_append, splitWh]
    rcases h : splitWh b with _ | ⟨g, gs⟩
    · exact absurd h (splitWh_ne_nil _)
    · simp [hw]
  | cons c a' ih =>
    intro b
    have hrec : splitWh (a' ++ w :: b) = splitWh a' ++ splitWh b := ih b
    rcases h : splitWh a' with _ | ⟨g, gs⟩
    · exact absurd h (splitWh_ne_nil _)
    · rw [h] at hrec
      simp only [List.cons_append, splitWh, h, List.append_eq]
      rw [hrec]
      by_cases hc : jsWhitespace c <;> simp [hc]

theorem runs_append_ws (w : Char) (hw : jsWhitespace w = true) (a b : List Char) :
    runs (a ++ w :: b) = runs a ++ runs b := by
  simp [runs, splitWh_append_ws w hw a b, List.filter_append]

theorem runs_nil : runs [] = [] := rfl

theorem runs_cons_ws (c : Char) (hc : jsWhitespace c = true) (rest : List Char) :
    runs (c :: rest) = runs rest := by
  simp only [runs, splitWh]
  rcases h : splitWh rest with _ | ⟨g, gs⟩
  · exact absurd h (splitWh_ne_nil _)
  · simp [hc]

theorem runs_joinSp : ∀ cs, runs (joinSp cs) = allRuns cs := by
  intro cs
  induction cs with
  | nil => rfl
  | cons x xs ih =>
    cases xs with
    | nil => simp [joinSp, allRuns]
    | cons y ys =>
      rw [joinSp_cons_cons, runs_append_ws ' ' (by decide) x (joinSp (y :: ys)), ih]
      simp [allRuns]

theorem runs_allws : ∀ s : List Char, (∀ c ∈ s, jsWhitespace c = true) → runs s = [] := by
  intro s
  induction s with
  | nil => simp [runs_nil]
  | cons c rest ih =>
    intro h
    rw [runs_cons_ws c (h c (by simp))]
    exact ih (fun x hx => h x (by simp [hx]))

theorem replMarker_allws : ∀ s : List Char, (∀ c ∈ s, jsWhitespace c = true) → replMarker s = s := by
  refine twoStepInduction (fun _ => rfl) (fun c _ => rfl) ?_
  intro c d rest ih ih1 h
  have hc : jsWhitespace c = true := h c (by simp)
  have hmark : ¬(c = '\\' ∧ d = 'n') := by
    rintro ⟨rfl, -⟩
    simp [jsWhitespace] at hc
  simp only [replMarker, if_neg hmark]
  rw [ih1 (fun x hx => h x (by simp at hx; rcases hx with rfl | hx <;> simp_all))]

theorem jsTrim_eq_nil {l : List Char} (h : jsTrim l = []) : ∀ c ∈ l, jsWhitespace c = true := by
  have h1 : (l.dropWhile jsWhitespace).reverse.dropWhile jsWhitespace = [] := by
    have := congrArg List.reverse h
    simpa [jsTrim] using this
  have h2 : ∀ c ∈ (l.dropWhile jsWhitespace).reverse, jsWhitespace c = true :=
    List.dropWhile_eq_nil_iff.mp h1
  have h3 : ∀ c ∈ l.dropWhile jsWhitespace, jsWhitespace c = true := by
    intro c hc
    exact h2 c (by simpa using hc)
  intro c hc
  rw [← List.takeWhile_append_dropWhile (p := jsWhitespace) (l := l)] at hc
  rcases List.mem_append.mp hc with h | h
  · exact List.mem_takeWhile_imp h
  · exact h3 c h

theorem splitCh_no_sep (sep : Char) : ∀ s g, g ∈ splitCh sep s → sep ∉ g := by
  intro s
  induction s with
  | nil => intro g hg; simp [splitCh] at hg; simp [hg]
  | cons c rest ih =>
    intro g hg
    rcases h : splitCh sep rest with _ | ⟨x, xs⟩
    · exact absurd h (splitCh_ne_nil _ _)
    · by_cases hc : c = sep
      · simp only [splitCh, h, if_pos hc, List.mem_cons] at hg
        rcases hg with hg | hg | hg
        · simp [hg]
        · exact ih g (by rw [h]; simp [hg])
        · exact ih g (by rw [h]; simp [hg])
      · simp only [splitCh, h, if_neg hc, List.mem_cons] at hg
        rcases hg with hg | hg
        · subst hg
          intro hmem
          simp only [List.mem_cons] at hmem
          rcases hmem with h1 | h1
          · exact hc h1.symm
          · exact ih x (by rw [h]; simp) h1
        · exact ih g (by rw [h]; simp [hg])

end WrapLemmas

section WrapLoopLemmas

theorem lineContent_push (f : Bool) (c : List Char) :
    lineContent (pushDescLine f c) = c := by
  cases f with
  | true =>
    have hpre : pFirst.isPrefixOf (pFirst ++ c) = true :=
      List.isPrefixOf_iff_prefix.mpr (List.prefix_append _ _)
    simp [pushDescLine, lineContent, hpre, List.drop_left]
  | false =>
    have hpre : pCont.isPrefixOf (pCont ++ c) = true :=
      List.isPrefixOf_iff_prefix.mpr (List.prefix_append _ _)
    have hnot : pFirst.isPrefixOf (pCont ++ c) = false := by
      by_contra hne
      have hp : pFirst <+: pCont ++ c :=
        List.isPrefixOf_iff_prefix.mp (by revert hne; cases pFirst.isPrefixOf (pCont ++ c) <;> simp)
      obtain ⟨t, ht⟩ := hp
      have hlen : pFirst.length = pCont.length := by decide
      have heq : pFirst = pCont := by
        have h1 := congrArg (List.take pFirst.length) ht
        rwa [List.take_left, hlen, List.take_left] at h1
      exact absurd heq (by decide)
    simp [pushDescLine, lineContent, hpre, hnot, List.drop_left]

theorem lineContent_pEmpty : lineContent pEmpty = [] := by decide

theorem contentsOf_pushContent (s : WrapState) (c : List Char) :
    contentsOf (pushContent s c) = contentsOf s ++ [c] := by
  simp [contentsOf, pushContent, lineContent_push]

theorem allRuns_append (a b : List (List Char)) :
    allRuns (a ++ b) = allRuns a ++ allRuns b := by
  simp [allRuns]

/-- The word loop neither loses, duplicates nor reorders words: the words of
the emitted contents followed by those of the remaining buffer are exactly
the previously emitted words, the words of the incoming buffer, and the
words of the consumed word list, in order. -/
theorem wrapLoop_runs :
    ∀ (ws : List (List Char)) (s : WrapState) (buf : List Char),
      allRuns (contentsOf (wrapLoop s buf ws).1) ++ runs (wrapLoop s buf ws).2
        = allRuns (contentsOf s) ++ runs buf ++ allRuns ws := by
  intro ws
  induction ws with
  | nil => intro s buf; simp [wrapLoop, allRuns]
  | cons word rest ih =>
    intro s buf
    simp only [wrapLoop]
    by_cases hfit : (if buf = [] then word else buf ++ ' ' :: word).length ≤ textContentWidth
    · rw [if_pos hfit, ih]
      by_cases hb : buf = []
      · simp [hb, allRuns, runs_nil]
      · rw [if_neg hb, runs_append_ws ' ' (by decide)]
        simp [allRuns, List.append_assoc]
    · rw [if_neg hfit]
      by_cases hlong : textContentWidth < word.length ∧ word ≠ []
      · rw [if_pos hlong, ih]
        by_cases hb : buf = []
        · simp [hb, if_neg (by simp : ¬(([] : List Char) ≠ [])), contentsOf_pushContent,
            allRuns_append, allRuns, runs_nil, List.append_assoc]
        · rw [if_pos hb]
          simp [contentsOf_pushContent, allRuns_append, allRuns, runs_nil, List.append_assoc]
      · rw [if_neg hlong, ih]
        by_cases hb : buf = []
        · simp [hb, if_neg (by simp : ¬(([] : List Char) ≠ [])), allRuns, runs_nil]
        · rw [if_pos hb]
          simp [contentsOf_pushContent, allRuns_append, allRuns, runs_nil, List.append_assoc]

end WrapLoopLemmas

section WidthLemmas

theorem wrapLoop_width :
    ∀ (ws : List (List Char)) (s : WrapState) (buf : List Char),
      (∀ w ∈ ws, ' ' ∉ w) →
      (∀ c ∈ contentsOf s, WidthOk c) →
      buf.length ≤ textContentWidth →
      (∀ c ∈ contentsOf (wrapLoop s buf ws).1, WidthOk c) ∧
        (wrapLoop s buf ws).2.length ≤ textContentWidth := by
  intro ws
  induction ws with
  | nil => intro s buf _ hs hb; exact ⟨hs, hb⟩
  | cons word rest ih =>
    intro s buf hws hs hb
    have hword : ' ' ∉ word := hws word (by simp)
    have hrest : ∀ w ∈ rest, ' ' ∉ w := fun w hw => hws w (by simp [hw])
    simp only [wrapLoop]
    by_cases hfit : (if buf = [] then word else buf ++ ' ' :: word).length ≤ textContentWidth
    · rw [if_pos hfit]
      exact ih s _ hrest hs hfit
    · rw [if_neg hfit]
      have hs1 : ∀ c ∈ contentsOf (if buf ≠ [] then pushContent s buf else s), WidthOk c := by
        by_cases hbne : buf = []
        · simpa [hbne] using hs
        · rw [if_pos hbne]
          rw [contentsOf_pushContent]
          intro c hc
          rcases List.mem_append.mp hc with h | h
          · exact hs c h
          · simp only [List.mem_singleton] at h
            subst h
            exact Or.inl hb
      by_cases hlong : textContentWidth < word.length ∧ word ≠ []
      · rw [if_pos hlong]
        refine ih _ [] hrest ?_ (by simp)
        rw [contentsOf_pushContent]
        intro c hc
        rcases List.mem_append.mp hc with h | h
        · exact hs1 c h
        · simp only [List.mem_singleton] at h
          subst h
          exact Or.inr hword
      · rw [if_neg hlong]
        have hwlen : word.length ≤ textContentWidth := by
          rcases not_and_or.mp hlong with h | h
          · omega
          · simp only [ne_eq, not_not] at h
            simp [h]
        exact ih _ word hrest hs1 hwlen

theorem processSegment_runs (s : WrapState) (seg : List Char) :
    allRuns (contentsOf (processSegment s seg)) = allRuns (contentsOf s) ++ runs seg := by
  by_cases hempty : jsTrim seg = [] ∧ s.isFirst = false
  · simp only [processSegment, if_pos hempty]
    have hruns : runs seg = [] := runs_allws seg (jsTrim_eq_nil hempty.1)
    simp [contentsOf, allRuns, hruns, lineContent_pEmpty, runs_nil]
  · simp only [processSegment, if_neg hempty]
    have hkey := wrapLoop_runs (splitCh ' ' seg) s []
    have hseg : allRuns (splitCh ' ' seg) = runs seg := by
      rw [← runs_joinSp, joinSp_splitCh]
    by_cases hbuf : (wrapLoop s [] (splitCh ' ' seg)).2 = []
    · rw [if_neg (by simpa using hbuf)]
      rw [hbuf] at hkey
      simpa [runs_nil, hseg] using hkey
    · rw [if_pos (by simpa using hbuf)]
      rw [contentsOf_pushContent, allRuns_append]
      rw [hseg] at hkey
      simp only [allRuns, List.flatMap_cons, List.flatMap_nil, List.append_nil, runs_nil,
        List.nil_append] at hkey ⊢
      exact hkey

theorem processSegment_width (s : WrapState) (seg : List Char)
    (hs : ∀ c ∈ contentsOf s, WidthOk c) :
    ∀ c ∈ contentsOf (processSegment s seg), WidthOk c := by
  by_cases hempty : jsTrim seg = [] ∧ s.isFirst = false
  · simp only [processSegment, if_pos hempty]
    intro c hc
    simp only [contentsOf, List.map_append, List.map_cons, List.map_nil] at hc
    rcases List.mem_append.mp hc with h | h
    · exact hs c h
    · simp only [List.mem_singleton, lineContent_pEmpty] at h
      subst h
      exact Or.inl (by simp [textContentWidth])
  · simp only [processSegment, if_neg hempty]
    have hnosep : ∀ w ∈ splitCh ' ' seg, ' ' ∉ w := splitCh_no_sep ' ' seg
    have hkey := wrapLoop_width (splitCh ' ' seg) s [] hnosep hs (by simp)
    by_cases hbuf : (wrapLoop s [] (splitCh ' ' seg)).2 = []
    · rw [if_neg (by simpa using hbuf)]
      exact hkey.1
    · rw [if_pos (by simpa using hbuf)]
      rw [contentsOf_pushContent]
      intro c hc
      rcases List.mem_append.mp hc with h | h
      · exact hkey.1 c h
      · simp only [List.mem_singleton] at h
        subst h
        exact Or.inl hkey.2

theorem foldl_processSegment_runs :
    ∀ (segs : List (List Char)) (s : WrapState),
      allRuns (contentsOf (segs.foldl processSegment s))
        = allRuns (contentsOf s) ++ allRuns segs := by
  intro segs
  induction segs with
  | nil => intro s; simp [allRuns]
  | cons seg rest ih =>
    intro s
    rw [List.foldl_cons, ih (processSegment s seg), processSegment_runs]
    simp [allRuns, List.append_assoc]

theorem foldl_processSegment_width :
    ∀ (segs : List (List Char)) (s : WrapState),
      (∀ c ∈ contentsOf s, WidthOk c) →
      ∀ c ∈ contentsOf (segs.foldl processSegment s), WidthOk c := by
  intro segs
  induction segs with
  | nil => intro s hs; exact hs
  | cons seg rest ih =>
    intro s hs
    exact ih _ (processSegment_width s seg hs)

end WidthLemmas

section WrapSpec

theorem contentsOf_empty_start : contentsOf ⟨[], true⟩ = [] := rfl

theorem lineContent_pFirst_nil : lineContent pFirst = [] := by decide

/--
**C2.**  The greedy word wrap of project descriptions at width
`textContentWidth = 75` is faithful: (1) re-joining the produced lines with
single spaces, after removing the inserted tree-drawing prefixes, the
`Description: ` label and the continuation indent (`lineContent`),
reconstructs exactly the words of the original description — its maximal
non-whitespace runs, with the hard line-break markers (the literal
two-character sequence `\`,`n`) counting as breaks (`runs (replMarker desc)`)
— with no word dropped, duplicated or reordered; and (2) no produced line's
content exceeds 75 characters except a line consisting of a single
unbreakable word (a content with no space in it).
-/
theorem projects_wordWrap_spec (desc : List Char) :
    runs (joinSp ((descriptionLines desc).map lineContent)) = runs (replMarker desc) ∧
    ∀ line ∈ descriptionLines desc,
      (lineContent line).length ≤ textContentWidth ∨ ' ' ∉ lineContent line := by
  by_cases h : desc ≠ [] ∧ jsTrim desc ≠ []
  · constructor
    · rw [descriptionLines, if_pos h, runs_joinSp]
      have hfold := foldl_processSegment_runs (splitMarker desc) ⟨[], true⟩
      rw [contentsOf_empty_start] at hfold
      simp only [allRuns, List.flatMap_nil, List.nil_append] at hfold
      have hcont : ((splitMarker desc).foldl processSegment ⟨[], true⟩).result.map lineContent
          = contentsOf ((splitMarker desc).foldl processSegment ⟨[], true⟩) := rfl
      rw [hcont, ← joinSp_splitMarker, runs_joinSp]
      exact hfold
    · intro line hline
      rw [descriptionLines, if_pos h] at hline
      have hw := foldl_processSegment_width (splitMarker desc) ⟨[], true⟩
        (by rw [contentsOf_empty_start]; intro c hc; cases hc)
      have : lineContent line ∈ contentsOf ((splitMarker desc).foldl processSegment ⟨[], true⟩) :=
        List.mem_map_of_mem lineContent hline
      exact hw _ this
  · constructor
    · rw [descriptionLines, if_neg h]
      have hdesc : runs (replMarker desc) = [] := by
        rcases not_and_or.mp h with hd | hd
        · simp only [ne_eq, not_not] at hd
          subst hd
          rfl
        · simp only [ne_eq, not_not] at hd
          have hws := jsTrim_eq_nil hd
          rw [replMarker_allws desc hws]
          exact runs_allws desc hws
      rw [hdesc]
      simp [lineContent_pFirst_nil, joinSp, runs_nil]
    · intro line hline
      rw [descriptionLines, if_neg h] at hline
      simp only [List.mem_singleton] at hline
      subst hline
      rw [lineContent_pFirst_nil]
      exact Or.inl (by simp [textContentWidth])

end WrapSpec

/-! ## Claim theorems -/

/--
**C3.**  `makeClickableLink`: for an empty, whitespace-only or `"#"`
placeholder url the label (or the raw url when no label is given, per the
JS `text || url`) is returned unchanged, with no markup; otherwise an
anchor markup fragment is returned whose embedded href is the url itself
when it already starts with `http://`, `https://` or `mailto:` (never
double-prefixed), `mailto:` ++ url for a bare email (a url containing
`@`), and `https://` ++ url for a bare host.
-/
theorem makeClickableLink_spec (url : String) (text : Option String) :
    ((url = "" ∨ jsTrimS url = "#" ∨ jsTrimS url = "") →
      makeClickableLink url text = jsOrString text url) ∧
    (¬(url = "" ∨ jsTrimS url = "#" ∨ jsTrimS url = "") →
      makeClickableLink url text =
        "<a href=\"" ++ hrefOf url ++ "\" target=\"_blank\" class=\"text-cyan-400 hover:underline\">"
          ++ jsOrString text url ++ "</a>") ∧
    ((jsStartsWith url "http://" || jsStartsWith url "https://" || jsStartsWith url "mailto:") = true →
      hrefOf url = url) ∧
    ((jsStartsWith url "http://" || jsStartsWith url "https://" || jsStartsWith url "mailto:") = false →
      jsIncludesChar url '@' = true → hrefOf url = "mailto:" ++ url) ∧
    ((jsStartsWith url "http://" || jsStartsWith url "https://" || jsStartsWith url "mailto:") = false →
      jsIncludesChar url '@' = false → hrefOf url = "https://" ++ url) := by
  refine ⟨fun h => by rw [makeClickableLink, if_pos h],
          fun h => by rw [makeClickableLink, if_neg h],
          fun h => by rw [hrefOf, if_neg (by simp [h])],
          fun h h2 => by
            have h3 := h
            simp only [Bool.or_eq_false_iff] at h3
            rw [hrefOf, if_pos (by simp [h]), if_pos (by simp [h2, h3.2])],
          fun h h2 => by rw [hrefOf, if_pos (by simp [h]), if_neg (by simp [h, h2])]⟩

/-- Witness for C3 at concrete inputs: the empty-url case returns the label
unchanged. -/
theorem makeClickableLink_spec_witness : makeClickableLink "" (some "x") = "x" :=
  (makeClickableLink_spec "" (some "x")).1 (Or.inl rfl)

/--
**C4 (amended).**  `generateSkillBar` returns a string (does not throw)
for every integer level in `[-2, 102]`.  Outside this range it throws a
`RangeError` (= `none`): for `level ≤ -3` the rounded filled-cell count is
negative, for `level ≥ 103` its 20-cell complement is, and
`String.prototype.repeat` throws on a negative count.
-/
theorem generateSkillBar_total_inRange (level : Int) (h0 : -2 ≤ level) (h1 : level ≤ 102) :
    (generateSkillBar level).isSome = true := by
  interval_cases level <;> decide

/-- Witness for C4's amended theorem at level 0. -/
theorem generateSkillBar_total_witness : (generateSkillBar 0).isSome = true :=
  generateSkillBar_total_inRange 0 (by decide) (by decide)

/--
**C4 (counterexample to the claim as stated).**  The claim "renderSkillBar
never crashes, for every integer level including out-of-range values"
fails at `level = -3`: `Math.round((-3 / 100) * 20) = -1` and
`'█'.repeat(-1)` throws a `RangeError`. -/
theorem generateSkillBar_crash_neg3 : generateSkillBar (-3) = none := by decide

/--
**C5.**  For every integer level in `[0, 100]`, `generateSkillBar` returns
a 20-cell bar: `filledBarsOf level` (the source's
`Math.round((level / 100) * 20)`) filled cells followed by the remaining
blank cells, 20 characters in total; in particular level 0 gives the
all-blank bar, level 100 the all-filled bar, and level 50 exactly 10
filled followed by 10 blank cells.
-/
theorem generateSkillBar_spec (level : Int) (h0 : 0 ≤ level) (h1 : level ≤ 100) :
    (generateSkillBar level =
      some (String.mk (List.replicate (filledBarsOf level).toNat '█'
        ++ List.replicate (20 - (filledBarsOf level).toNat) ' ')) ∧
     (String.mk (List.replicate (filledBarsOf level).toNat '█'
        ++ List.replicate (20 - (filledBarsOf level).toNat) ' ')).length = 20) ∧
    generateSkillBar 0 = some (String.mk (List.replicate 20 ' ')) ∧
    generateSkillBar 100 = some (String.mk (List.replicate 20 '█')) ∧
    generateSkillBar 50 = some (String.mk (List.replicate 10 '█' ++ List.replicate 10 ' ')) := by
  refine ⟨?_, by decide, by decide, by decide⟩
  interval_cases level <;> exact ⟨by decide, by decide⟩

/-- Witness for C5 at level 50. -/
theorem generateSkillBar_spec_witness :
    generateSkillBar 50 = some (String.mk (List.replicate (filledBarsOf 50).toNat '█'
      ++ List.replicate (20 - (filledBarsOf 50).toNat) ' ')) :=
  (generateSkillBar_spec 50 (by decide) (by decide)).1.1

/--
**C6 (the bug, evaluated).**  The dispatcher's registry membership test
`COMMANDS[command]` is a JS property read that also finds inherited
`Object.prototype` members: for the unknown tokens `constructor` and
`__proto__` the not-found branch is skipped and the dispatched output is
`COMMANDS[command].output = undefined` (here `.resolved none`) instead of
the claimed two-line message — and the render of that entry then throws.
An ordinary unknown token such as `bogus` does produce the claimed
two-line message naming the token and pointing to `help`.
-/
theorem unknownCommand_prototype_bug :
    executeCommandOutput sampleData sampleReg "constructor" = .resolved none ∧
    executeCommandOutput sampleData sampleReg "__proto__" = .resolved none ∧
    executeCommandOutput sampleData sampleReg "bogus" =
      .resolved (some ["Command not found: bogus",
                       "Type \"help\" to see available commands."]) := by
  exact ⟨rfl, rfl, rfl⟩

/--
**C7.**  Dispatching `clear` truncates the command history to the empty
sequence, resets the input and the Processing flag, and appends no history
entry for the clear invocation itself (nothing is queued: the pending
queue is untouched and the history is left empty by it).
-/
theorem clear_spec (d : PortfolioData) (reg : List (String × CommandEntry)) (s : TerminalState) :
    executeCommandOutput d reg "clear" = .cleared ∧
    executeCommandStart d reg s "clear" =
      { s with commands := [], currentInput := "", isTyping := false } ∧
    (executeCommandStart d reg s "clear").pending = s.pending := by
  have h : executeCommandOutput d reg "clear" = .cleared := rfl
  refine ⟨h, ?_, ?_⟩ <;> simp [executeCommandStart, h]

/-- Every input of the claimed class — empty or whitespace-only, i.e. with
an empty trim — normalizes to the empty command name and resolves to the
single blank line.  (The converse direction of the equivalence also holds:
`jsTrim` never leaves leading whitespace and `jsCharLower` never produces
a space, so the first space-split token of the lowered trim is empty
exactly when the trim is; only this direction is needed.) -/
theorem emptyInput_dispatch (d : PortfolioData) (reg : List (String × CommandEntry))
    (input : String) (hinput : jsTrimS input = "") :
    executeCommandOutput d reg input = .resolved (some [""]) := by
  rw [executeCommandOutput, hinput]
  rfl

/--
**C8.**  For every empty or whitespace-only input (an input whose trim is
empty, so its normalized command name is empty), dispatch resolves to
exactly one blank line, and a history entry recording that original input
verbatim, with the blank-line output, is still appended when the
resolution completes.
-/
theorem emptyInput_spec (d : PortfolioData) (reg : List (String × CommandEntry))
    (input : String) (hinput : jsTrimS input = "")
    (s : TerminalState) (now : Nat) (h : s.pending = []) :
    executeCommandOutput d reg input = .resolved (some [""]) ∧
    (executeCommandFinish now (executeCommandStart d reg s input)).commands
      = s.commands ++ [⟨input, some [""], now⟩] ∧
    (executeCommandFinish now (executeCommandStart d reg s input)).isTyping = false := by
  have hout : executeCommandOutput d reg input = .resolved (some [""]) :=
    emptyInput_dispatch d reg input hinput
  refine ⟨hout, ?_, ?_⟩ <;> simp [executeCommandStart, executeCommandFinish, hout, h]

/-- Witness for C8 from the initial session state at instant 7, on a
whitespace-only (not empty) input, recorded verbatim. -/
theorem emptyInput_spec_witness :
    (executeCommandFinish 7 (executeCommandStart sampleData sampleReg initState "  \t ")).commands
      = [⟨"  \t ", some [""], 7⟩] := by
  have h := emptyInput_spec sampleData sampleReg "  \t " (by decide) initState 7 rfl
  simpa [initState] using h.2.1

theorem skillsOutput_ne_nil (d : PortfolioData) (sk : List String)
    (h : skillsOutput d = some sk) : sk ≠ [] := by
  rcases hm : d.skills.mapM (fun cs => categoryChunk cs.1 cs.2) with _ | chunks <;>
    rw [skillsOutput, hm] at h
  · simp at h
  · simp only [Option.bind_eq_bind, Option.some_bind, Option.pure_def, Option.some.injEq] at h
    rw [← h]
    simp

/--
**C1 (amended).**  For every registered command name, dispatch returns a
non-empty line sequence equal to the precomputed registry output for that
name — including `date`: its output is the timestamp captured when the
registry was built (`generateCommands` is re-invoked on every render of
the component, so the stored timestamp is the most recent render's, not
the dispatch instant's).
-/
theorem registry_dispatch (d : PortfolioData) (now : Nat) (reg : List (String × CommandEntry))
    (hreg : generateCommands d now = some reg) :
    ∀ p ∈ reg, executeCommandOutput d reg p.1 = .resolved (some p.2.output) ∧
      p.2.output ≠ [] ∧ (p.1 = "date" → p.2.output = [dateToString now]) := by
  rcases hsk : skillsOutput d with _ | sk <;> rw [generateCommands, hsk] at hreg
  · simp at hreg
  · simp only [Option.bind_eq_bind, Option.some_bind, Option.pure_def, Option.some.injEq] at hreg
    subst hreg
    have hskne : sk ≠ [] := skillsOutput_ne_nil d sk hsk
    intro p hp
    simp only [List.mem_cons, List.not_mem_nil, or_false] at hp
    rcases hp with rfl | rfl | rfl | rfl | rfl | rfl | rfl | rfl | rfl | rfl | rfl | rfl
    · exact ⟨rfl, by simp [helpOutput], fun hne => absurd hne (by simp)⟩
    · exact ⟨rfl, by simp [aboutOutput], fun hne => absurd hne (by simp)⟩
    · exact ⟨rfl, hskne, fun hne => absurd hne (by simp)⟩
    · exact ⟨rfl, by simp [projectsOutput], fun hne => absurd hne (by simp)⟩
    · exact ⟨rfl, by simp [educationOutput], fun hne => absurd hne (by simp)⟩
    · exact ⟨rfl, by simp [contactOutput], fun hne => absurd hne (by simp)⟩
    · exact ⟨rfl, by simp [resumeOutput], fun hne => absurd hne (by simp)⟩
    · exact ⟨rfl, by simp, fun hne => absurd hne (by simp)⟩
    · exact ⟨rfl, by simp, fun hne => absurd hne (by simp)⟩
    · exact ⟨rfl, by simp [formatFileList], fun hne => absurd hne (by simp)⟩
    · exact ⟨rfl, by simp, fun _ => rfl⟩
    · exact ⟨rfl, by simp [neofetchOutput], fun hne => absurd hne (by simp)⟩

/-- Witness for C1's amended theorem: on the sample registry (built at
instant 0), dispatching `date` returns its stored, non-empty output. -/
theorem registry_dispatch_witness :
    executeCommandOutput sampleData sampleReg "date"
      = .resolved (some [dateToString 0]) ∧ ([dateToString 0] : List String) ≠ [] := by
  have h := registry_dispatch sampleData 0 sampleReg rfl
    ("date", ⟨"Show current date and time", [dateToString 0]⟩) (by decide)
  exact ⟨h.1, h.2.1⟩

/--
**C1 (counterexample to the claim as stated).**  The claim requires the
`date` output to be the timestamp rendered at dispatch time rather than
the one captured at registry-build time.  On the code it is the
registry-build timestamp: with the registry built at instant 0, a dispatch
of `date` at any later instant (say 1) still returns the instant-0
rendering, not the instant-1 rendering.
-/
theorem registry_date_counterexample :
    ∃ reg, generateCommands sampleData 0 = some reg ∧
      executeCommandOutput sampleData reg "date" = .resolved (some [dateToString 0]) ∧
      executeCommandOutput sampleData reg "date" ≠ .resolved (some [dateToString 1]) :=
  ⟨sampleReg, rfl, rfl, by decide⟩

theorem sessionStep_flightInv (d : PortfolioData) (reg : List (String × CommandEntry))
    {s t : TerminalState} (hstep : SessionStep d reg s t) (hinv : FlightInv s) : FlightInv t := by
  cases hstep with
  | submit =>
    rw [handleSubmit]
    by_cases hc : jsTrimS s.currentInput ≠ "" ∧ s.isTyping = false
    · rw [if_pos hc]
      have hpend : s.pending = [] := hinv.1 hc.2
      rw [executeCommandStart]
      cases executeCommandOutput d reg s.currentInput with
      | cleared => exact ⟨fun _ => hpend, hinv.2⟩
      | resolved out => exact ⟨fun h => by simp at h, by simp [hpend]⟩
    · rw [if_neg hc]; exact hinv
  | finish now =>
    rw [executeCommandFinish]
    rcases hp : s.pending with _ | ⟨p, rest⟩
    · exact hinv
    · have : rest = [] := by
        have := hinv.2
        rw [hp] at this
        simpa using this
      subst this
      exact ⟨fun _ => rfl, by simp⟩
  | edit str => exact hinv

/--
**C9.**  While a command is being resolved (the Processing flag is set),
new submissions are rejected: `handleSubmit` is the identity on any state
with `isTyping = true`, and consequently in every session state reachable
from the initial one at most one resolution is ever in flight.
-/
theorem processing_single_flight (d : PortfolioData) (reg : List (String × CommandEntry)) :
    (∀ s : TerminalState, s.isTyping = true → handleSubmit d reg s = s) ∧
    (∀ s : TerminalState, SessionReachable d reg initState s → s.pending.length ≤ 1) := by
  constructor
  · intro s hs
    rw [handleSubmit, if_neg]
    rintro ⟨-, h2⟩
    rw [hs] at h2
    cases h2
  · intro s hreach
    have hinv : FlightInv s := by
      induction hreach with
      | refl => exact ⟨fun _ => rfl, by simp [initState]⟩
      | tail hsteps hstep ih => exact sessionStep_flightInv d reg hstep ih
    exact hinv.2

/-- Witness for C9: a Processing state rejects a submission, and the
initial state has no resolution in flight. -/
theorem processing_single_flight_witness :
    handleSubmit sampleData sampleReg ⟨[], "help", true, []⟩ = ⟨[], "help", true, []⟩ ∧
    initState.pending.length ≤ 1 :=
  ⟨(processing_single_flight sampleData sampleReg).1 ⟨[], "help", true, []⟩ rfl,
   (processing_single_flight sampleData sampleReg).2 initState Relation.ReflTransGen.refl⟩

theorem sessionStep_nonBlankInv (d : PortfolioData) (reg : List (String × CommandEntry))
    {s t : TerminalState} (hstep : SessionStep d reg s t) (hinv : NonBlankInv s) :
    NonBlankInv t := by
  cases hstep with
  | submit =>
    rw [handleSubmit]
    by_cases hc : jsTrimS s.currentInput ≠ "" ∧ s.isTyping = false
    · rw [if_pos hc]
      rw [executeCommandStart]
      cases executeCommandOutput d reg s.currentInput with
      | cleared => exact ⟨fun c hc => absurd hc (by simp), hinv.2⟩
      | resolved out =>
        refine ⟨hinv.1, fun p hp => ?_⟩
        simp only [List.mem_append, List.mem_singleton] at hp
        rcases hp with hp | rfl
        · exact hinv.2 p hp
        · exact hc.1
    · rw [if_neg hc]; exact hinv
  | finish now =>
    rw [executeCommandFinish]
    rcases hp : s.pending with _ | ⟨p, rest⟩
    · exact hinv
    · refine ⟨fun c hcm => ?_, fun q hq => hinv.2 q (by rw [hp]; simp [hq])⟩
      simp only [List.mem_append, List.mem_singleton] at hcm
      rcases hcm with hcm | rfl
      · exact hinv.1 c hcm
      · exact hinv.2 p (by rw [hp]; simp)
  | edit str => exact hinv

/--
**C10.**  Through the public submit surface, an empty or whitespace-only
input is never dispatched: `handleSubmit` is the identity when the trimmed
current input is empty (no Processing transition, nothing queued, no
history entry), and consequently every history entry of a session driven
from the initial state through submit/finish/edit events records an input
with at least one non-whitespace character — the blank-entry behavior of
`executeCommand` (C8) is reachable only by calling it directly.
-/
theorem submit_rejects_blank (d : PortfolioData) (reg : List (String × CommandEntry)) :
    (∀ s : TerminalState, jsTrimS s.currentInput = "" → handleSubmit d reg s = s) ∧
    (∀ s : TerminalState, SessionReachable d reg initState s →
      ∀ c ∈ s.commands, jsTrimS c.input ≠ "") := by
  constructor
  · intro s hs
    rw [handleSubmit, if_neg]
    rintro ⟨h1, -⟩
    exact h1 hs
  · intro s hreach
    have hinv : NonBlankInv s := by
      induction hreach with
      | refl => exact ⟨fun c hc => absurd hc (by simp [initState]), fun p hp => absurd hp (by simp [initState])⟩
      | tail hsteps hstep ih => exact sessionStep_nonBlankInv d reg hstep ih
    exact hinv.1

/-- Witness for C10: a whitespace-only input is not dispatched. -/
theorem submit_rejects_blank_witness :
    handleSubmit sampleData sampleReg ⟨[], "   ", false, []⟩ = ⟨[], "   ", false, []⟩ :=
  (submit_rejects_blank sampleData sampleReg).1 ⟨[], "   ", false, []⟩ (by decide)

/-- Witness for C2 at a concrete description. -/
theorem projects_wordWrap_spec_witness :
    runs (joinSp ((descriptionLines "alpha beta".data).map lineContent))
      = runs (replMarker "alpha beta".data) ∧
    ((lineContent (pFirst ++ "alpha beta".data)).length ≤ textContentWidth ∨
      ' ' ∉ lineContent (pFirst ++ "alpha beta".data)) :=
  ⟨(projects_wordWrap_spec "alpha beta".data).1,
   (projects_wordWrap_spec "alpha beta".data).2 (pFirst ++ "alpha beta".data) (by decide)⟩
